import Mathlib

/-
Verification of the scoring/fairness pipeline of the Fair AI Interview System
(src/main.py). Each Python fragment is shallowly embedded as an executable
Lean definition; theorems below settle the specification claims against these
definitions. Machine integers are modelled as Nat/Int (Python ints are
unbounded), pandas floating point aggregation is modelled over the rationals,
and the Streamlit session dictionary is modelled as an explicit state record.
-/

/- ### Section 1: score extraction (main.py line 106)

Python:
  st.session_state.score =
    int(re.search(r"(\d+)", feedback.split("\n")[0]).group(1))
    if re.search(r"(\d+)", feedback.split("\n")[0]) else 75

feedback.split("\n")[0] is the prefix of the text before the first newline;
re.search with pattern (\d+) finds the first maximal run of decimal digits; int(...)
parses it.  No clamping is applied. -/

/-- Characters of the first line: everything before the first newline,
modelling feedback.split("\n")[0]. -/
def firstLineOf (cs : List Char) : List Char := cs.takeWhile (fun c => c != '\n')

/-- First maximal run of decimal digits in the text, modelling the match of
re.search with pattern (\d+): skip to the first digit, then take the maximal
digit run.  none when the text contains no digit. -/
def searchDigits (cs : List Char) : Option (List Char) :=
  let t := cs.dropWhile (fun c => !c.isDigit)
  if t.isEmpty then none else some (t.takeWhile Char.isDigit)

/-- Decimal value of a digit string, modelling Python int(...) on a string of
digits (most significant digit first). -/
def digitsToNat (ds : List Char) : ℕ := ds.foldl (fun n c => 10 * n + (c.toNat - 48)) 0

/-- The Score Extractor of main.py line 106: first digit run of the first
line, parsed as an integer, defaulting to 75 when the first line has no
digits.  The result is unclamped. -/
def extractScore (feedback : String) : ℤ :=
  match searchDigits (firstLineOf feedback.data) with
  | some ds => (digitsToNat ds : ℤ)
  | none => 75

/- ### Section 2: question extraction (main.py line 76)

Python:  st.session_state.questions = re.findall(r"\d+\.\s+(.*)", text)

re.findall scans left to right for non-overlapping matches of the pattern:
one or more digits, a literal dot, one or more whitespace characters (\s,
which includes newlines), then the capture (.*) which runs greedily to the
end of the current line (. does not match a newline).  After a match the
scan resumes at the character following the capture. -/

/-- Whitespace class of the Python regex token \s restricted to ASCII:
space, tab, newline, carriage return, vertical tab, form feed. -/
def isPySpace (c : Char) : Bool :=
  c = ' ' || c = '\t' || c = '\n' || c = '\r' || c = '\x0B' || c = '\x0C'

/-- One attempt to match the pattern \d+\.\s+(.*) at the head of the input.
Returns (capture, remaining input after the match), or none when the pattern
does not match here.  All three quantifiers are greedy exactly as in the
regex; greediness never needs backtracking here because (.*) accepts the
empty string. -/
def matchNumberedAt (cs : List Char) : Option (List Char × List Char) :=
  let ds := cs.takeWhile Char.isDigit
  if ds.isEmpty then none
  else
    match cs.dropWhile Char.isDigit with
    | '.' :: rest =>
      let ws := rest.takeWhile isPySpace
      if ws.isEmpty then none
      else
        let t := rest.dropWhile isPySpace
        some (t.takeWhile (fun c => c != '\n'), t.dropWhile (fun c => c != '\n'))
    | _ => none

/-- Fueled scan of re.findall: at each position try the pattern; on success
emit the capture and resume after it, otherwise advance one character.  Each
step consumes at least one character, so fuel equal to the input length is
always sufficient (proved below). -/
def findallAux : ℕ → List Char → List (List Char)
  | 0, _ => []
  | _ + 1, [] => []
  | f + 1, c :: cs =>
    match matchNumberedAt (c :: cs) with
    | some (cap, after) => cap :: findallAux f after
    | none => findallAux f cs

/-- The findall scan of the question pattern over a character list. -/
def findallNumbered (cs : List Char) : List (List Char) := findallAux cs.length cs

/-- The Question Extractor of main.py line 76. -/
def extractQuestions (text : String) : List String :=
  (findallNumbered text.data).map List.asString

/-- A line (newline-free) of the shape "<number>. <text>": one or more
digits, a dot, one or more whitespace characters, then a nonempty remainder
starting with a non-whitespace character.  This is the spec notion of a
well-formed numbered line. -/
def wellFormedNumbered (l : List Char) : Bool :=
  !(l.takeWhile Char.isDigit).isEmpty &&
    match l.dropWhile Char.isDigit with
    | '.' :: rest =>
      !(rest.takeWhile isPySpace).isEmpty && !(rest.dropWhile isPySpace).isEmpty
    | _ => false

/-- The question text of a well-formed numbered line: what follows the digit
run, the dot and the whitespace run. -/
def captureOf (l : List Char) : List Char :=
  ((l.dropWhile Char.isDigit).drop 1).dropWhile isPySpace

/-- Join lines with single newline separators (no trailing newline). -/
def joinLines : List (List Char) → List Char
  | [] => []
  | [l] => l
  | l :: ls => l ++ '\n' :: joinLines ls

/- ### Section 3: skills graph (main.py lines 165-172)

Python:
  skills = re.findall(r"\b(Python|Java|SQL|HTML|CSS|React|C\+\+|Machine Learning|
                      Data Analysis|AI|Spring Boot)\b", resume_text, re.I)
  G = nx.Graph()
  for skill in skills: G.add_node(skill)
  for i in range(len(skills)):
    for j in range(i+1, len(skills)):
      G.add_edge(skills[i], skills[j])

The alternation is tried left to right at each position; matching is case
insensitive but findall returns the matched text in its original case; \b
requires a word/non-word boundary on each side.  Note that the edge loop runs
over the raw (duplicated) match list, so a skill occurring twice produces the
self-loop add_edge(s, s), which networkx stores as an edge. -/

/-- The fixed skill vocabulary, in the order of the regex alternation. -/
def skillKeywords : List (List Char) :=
  ["Python".data, "Java".data, "SQL".data, "HTML".data, "CSS".data, "React".data,
   "C++".data, "Machine Learning".data, "Data Analysis".data, "AI".data,
   "Spring Boot".data]

/-- Word character of the regex token \w restricted to ASCII: letters,
digits and underscore. -/
def isWordChar (c : Char) : Bool := c.isAlphanum || c = '_'

/-- Case-insensitive prefix test: kw is a prefix of cs up to ASCII case. -/
def matchesCI : List Char → List Char → Bool
  | [], _ => true
  | _ :: _, [] => false
  | k :: ks, c :: cs => (k.toLower == c.toLower) && matchesCI ks cs

/-- Word boundary \b between two adjacent positions: exactly one side is a
word character (an absent side, start or end of text, counts as non-word). -/
def boundaryB (a b : Option Char) : Bool :=
  (match a with | none => false | some c => isWordChar c) !=
    (match b with | none => false | some c => isWordChar c)

/-- Try one alternative of the alternation at the head of cs: the keyword
must match case-insensitively and both surrounding \b conditions must hold.
Returns (matched text in original case, rest of input). -/
def tryKeyword (prev : Option Char) (cs kw : List Char) : Option (List Char × List Char) :=
  if matchesCI kw cs then
    let m := cs.take kw.length
    let rest := cs.drop kw.length
    if boundaryB prev m.head? && boundaryB m.getLast? rest.head? then some (m, rest)
    else none
  else none

/-- Try the alternatives in regex order at the head of cs (prev is the
character immediately before this position, none at the start of text). -/
def matchSkillAt (prev : Option Char) (cs : List Char) : Option (List Char × List Char) :=
  skillKeywords.findSome? (tryKeyword prev cs)

/-- Fueled scan of re.findall for the skill alternation: non-overlapping
leftmost matches, resuming after each match. -/
def findSkillsAux : ℕ → Option Char → List Char → List (List Char)
  | 0, _, _ => []
  | _ + 1, _, [] => []
  | f + 1, prev, c :: cs =>
    match matchSkillAt prev (c :: cs) with
    | some (m, rest) => m :: findSkillsAux f m.getLast? rest
    | none => findSkillsAux f (some c) cs

/-- The skill match list of main.py line 165 (duplicates retained, original
case retained). -/
def extractSkills (text : String) : List String :=
  (findSkillsAux text.data.length none text.data).map List.asString

/-- Node set of the skills graph: distinct matches in order of first
occurrence (networkx add_node ignores an already present node). -/
def skillNodes (text : String) : List String := (extractSkills text).dedup

/-- All index pairs i < j of a list, as the ordered value pairs
(skills[i], skills[j]) fed to add_edge in main.py lines 170-172. -/
def allPairs {α : Type} : List α → List (α × α)
  | [] => []
  | x :: xs => (xs.map (fun y => (x, y))) ++ allPairs xs

/-- Edge test of the undirected networkx graph: some add_edge call joined u
and v (in either orientation).  add_edge(u, u) stores a self-loop. -/
def hasEdge {α : Type} [DecidableEq α] (skills : List α) (u v : α) : Bool :=
  (allPairs skills).any (fun p => (p.1 = u && p.2 = v) || (p.1 = v && p.2 = u))

/- ### Section 4: result record and persistent store (main.py lines 118-136)

Python:
  new_data = pd.DataFrame([{ "Name": candidate_name, "Gender": candidate_gender,
    "Experience": candidate_experience, "Job Role": job_role,
    "Score": st.session_state.score,
    "Selected": 1 if st.session_state.score >= 70 else 0 }])
  if os.path.exists("results.csv"):
      old_data = pd.read_csv("results.csv")
      df = pd.concat([old_data, new_data], ignore_index=True)
  else:
      df = new_data
  df.to_csv("results.csv", index=False)

The store is a CSV text file with a header row; to_csv writes one line per
row with minimal quoting (a cell containing a comma, quote, newline or
carriage return is wrapped in double quotes with inner quotes doubled) and a
trailing newline per row; read_csv parses it back.  We model the file as the
character string and the reader as a quote-aware CSV automaton. -/

/-- One row of results.csv (column order of main.py lines 120-127).  Scores
are unbounded integers, as in Python. -/
structure ResultRecord where
  name : String
  gender : String
  experience : String
  jobRole : String
  score : ℤ
  selected : ℤ
deriving DecidableEq, Repr

/-- The record built by main.py lines 120-127: Selected is 1 when the score
is at least 70 and 0 otherwise, with no clamping of the score. -/
def mkResultRecord (name gender experience jobRole : String) (score : ℤ) : ResultRecord :=
  ⟨name, gender, experience, jobRole, score, if 70 ≤ score then 1 else 0⟩

/-- Decimal digit character of a value below ten. -/
def digitChar : ℕ → Char
  | 0 => '0' | 1 => '1' | 2 => '2' | 3 => '3' | 4 => '4'
  | 5 => '5' | 6 => '6' | 7 => '7' | 8 => '8' | _ => '9'

/-- Fueled most-significant-first decimal printer (fuel n suffices for n). -/
def natToDigitsAux : ℕ → ℕ → List Char
  | 0, n => [digitChar n]
  | f + 1, n => if n < 10 then [digitChar n] else natToDigitsAux f (n / 10) ++ [digitChar (n % 10)]

/-- Decimal digits of a natural number, most significant first. -/
def natToDigits (n : ℕ) : List Char := natToDigitsAux n n

/-- Decimal text of an integer cell as pandas to_csv prints an int64 column. -/
def intToChars (i : ℤ) : List Char :=
  if i < 0 then '-' :: natToDigits i.natAbs else natToDigits i.toNat

/-- Parse a nonempty all-digit string as a natural number. -/
def parseNatChars (ds : List Char) : Option ℕ :=
  if !ds.isEmpty && ds.all Char.isDigit then some (digitsToNat ds) else none

/-- Parse an optionally minus-signed decimal integer, as read_csv types an
integer column. -/
def parseIntChars : List Char → Option ℤ
  | '-' :: ds => (parseNatChars ds).map (fun n => -(n : ℤ))
  | ds => (parseNatChars ds).map (fun n => (n : ℤ))

/-- Minimal-quoting condition of to_csv: the cell contains a separator,
quote or line break character. -/
def needsQuote (cs : List Char) : Bool :=
  cs.any (fun c => c = ',' || c = '"' || c = '\n' || c = '\r')

/-- Body of a quoted cell: every double quote is doubled. -/
def escBody : List Char → List Char
  | [] => []
  | c :: rest => if c = '"' then '"' :: '"' :: escBody rest else c :: escBody rest

/-- A serialized cell: quoted with doubled inner quotes when needed,
verbatim otherwise (QUOTE_MINIMAL). -/
def escapeCell (cs : List Char) : List Char :=
  if needsQuote cs then '"' :: (escBody cs ++ ['"']) else cs

/-- Join cell texts with comma separators. -/
def sepComma : List (List Char) → List Char
  | [] => []
  | [c] => c
  | c :: cs => c ++ ',' :: sepComma cs

/-- One serialized CSV line: escaped cells, comma-separated, newline
terminated, as to_csv emits it. -/
def serializeRow (cells : List (List Char)) : List Char :=
  sepComma (cells.map escapeCell) ++ ['\n']

/-- The header row of results.csv (to_csv with index=False). -/
def headerCells : List (List Char) :=
  ["Name".data, "Gender".data, "Experience".data, "Job Role".data,
   "Score".data, "Selected".data]

/-- The cell texts of one record, in column order. -/
def recordCells (r : ResultRecord) : List (List Char) :=
  [r.name.data, r.gender.data, r.experience.data, r.jobRole.data,
   intToChars r.score, intToChars r.selected]

/-- The full file text written by df.to_csv("results.csv", index=False). -/
def writeStore (rows : List ResultRecord) : String :=
  (((headerCells :: rows.map recordCells).map serializeRow).flatten).asString

/-- Mode of the CSV reading automaton: at the start of a cell, inside an
unquoted cell, inside a quoted cell, or just after a quote character inside
a quoted cell (which either doubles to a literal quote or closes the cell). -/
inductive CsvMode
  | cellStart | unquoted | quoted | quoteInQuoted
deriving DecidableEq, Repr

/-- State of the CSV reading automaton. -/
structure CsvState where
  mode : CsvMode
  cell : List Char
  row : List (List Char)
  rows : List (List (List Char))
deriving Repr

/-- Initial reader state. -/
def csvInit : CsvState := ⟨CsvMode.cellStart, [], [], []⟩

/-- One character of CSV reading: commas split cells, newlines split rows,
both literal inside quoted cells; doubled quotes inside a quoted cell stand
for one quote character. -/
def csvStep (s : CsvState) (c : Char) : CsvState :=
  match s.mode with
  | CsvMode.cellStart =>
    if c = '"' then { s with mode := CsvMode.quoted }
    else if c = ',' then { s with row := s.row ++ [s.cell], cell := [] }
    else if c = '\n' then
      { s with rows := s.rows ++ [s.row ++ [s.cell]], row := [], cell := [] }
    else { s with mode := CsvMode.unquoted, cell := s.cell ++ [c] }
  | CsvMode.unquoted =>
    if c = ',' then { s with mode := CsvMode.cellStart, row := s.row ++ [s.cell], cell := [] }
    else if c = '\n' then
      { s with mode := CsvMode.cellStart, rows := s.rows ++ [s.row ++ [s.cell]], row := [], cell := [] }
    else { s with cell := s.cell ++ [c] }
  | CsvMode.quoted =>
    if c = '"' then { s with mode := CsvMode.quoteInQuoted }
    else { s with cell := s.cell ++ [c] }
  | CsvMode.quoteInQuoted =>
    if c = '"' then { s with mode := CsvMode.quoted, cell := s.cell ++ ['"'] }
    else if c = ',' then { s with mode := CsvMode.cellStart, row := s.row ++ [s.cell], cell := [] }
    else if c = '\n' then
      { s with mode := CsvMode.cellStart, rows := s.rows ++ [s.row ++ [s.cell]], row := [], cell := [] }
    else { s with mode := CsvMode.unquoted, cell := s.cell ++ [c] }

/-- Flush the reader state at the end of input; a file ending directly after
a row terminator contributes no extra row. -/
def csvFinish (s : CsvState) : List (List (List Char)) :=
  if s.mode = CsvMode.cellStart ∧ s.cell = [] ∧ s.row = [] then s.rows
  else s.rows ++ [s.row ++ [s.cell]]

/-- Parse a CSV text into its rows of raw cell texts. -/
def parseCsv (cs : List Char) : List (List (List Char)) :=
  csvFinish (cs.foldl csvStep csvInit)

/-- Type one parsed row as a ResultRecord: four text columns and two
integer columns, as read_csv types results.csv. -/
def rowToRecord (cells : List (List Char)) : Option ResultRecord :=
  match cells with
  | [n, g, e, j, sc, se] =>
    match parseIntChars sc, parseIntChars se with
    | some a, some b => some ⟨n.asString, g.asString, e.asString, j.asString, a, b⟩
    | _, _ => none
  | _ => none

/-- pd.read_csv("results.csv") over the modelled file text: header row then
one record per line.  none models a parse failure (raised exception). -/
def readStore (f : String) : Option (List ResultRecord) :=
  match parseCsv f.data with
  | [] => none
  | hdr :: body => if hdr = headerCells then body.mapM rowToRecord else none

/-- One Fairness Recorder invocation over the file system state (none when
results.csv does not exist yet), modelling main.py lines 129-135: read the
existing file, append the one new row, rewrite the whole file.  When reading
fails the exception propagates before any write, leaving the file as it was. -/
def recordStep (file : Option String) (r : ResultRecord) : Option String :=
  match file with
  | none => some (writeStore [r])
  | some f =>
    match readStore f with
    | some old => some (writeStore (old ++ [r]))
    | none => some f

/- ### Section 5: fairness analyzer (main.py lines 143-155)

Python:
  group_sr = df.groupby("Gender")["Selected"].mean()
  max_sr = group_sr.max()
  air = (group_sr / max_sr).round(2)
  for group, ratio in air.items():
      if ratio < 0.8: st.warning(...potential bias...)
      else: st.success(...fair...)

The analyzer only reads the Gender and Selected columns, so its input is
modelled as a list of (gender, selected) pairs with rational entries (pandas
means are floating point; we model the arithmetic exactly over ℚ, and the
half-to-even detail of pandas round is modelled as round to nearest).  The
group key order of groupby does not affect any claim, so groups are listed
in order of first occurrence. -/

/-- The gender groups present in the store (groupby produces exactly the
distinct keys; a group with zero records never appears). -/
def groupsOf (store : List (String × ℚ)) : List String := (store.map Prod.fst).dedup

/-- Per-group selection rate: mean of the Selected column within the group. -/
def groupRate (store : List (String × ℚ)) (g : String) : ℚ :=
  let sel := (store.filter (fun r => r.1 == g)).map Prod.snd
  sel.sum / (sel.length : ℚ)

/-- Maximum of a list of rationals (0 for the empty list; group_sr.max()
is only taken over the nonempty group series). -/
def listMaxQ : List ℚ → ℚ
  | [] => 0
  | [x] => x
  | x :: xs => max x (listMaxQ xs)

/-- max_sr of main.py line 146. -/
def maxRate (store : List (String × ℚ)) : ℚ :=
  listMaxQ ((groupsOf store).map (groupRate store))

/-- Rounding to two decimal places, .round(2) of main.py line 147. -/
def round2 (x : ℚ) : ℚ := ((round (100 * x) : ℤ) : ℚ) / 100

/-- A pandas float cell as far as this dashboard can observe it: an exact
rational value, NaN, or a signed infinity.  Precision of finite values is
modelled exactly over ℚ (a disclosed convention); the IEEE-754 error values
produced by dividing by a zero maximal rate are represented explicitly. -/
inductive FloatQ
  | nan
  | posInf
  | negInf
  | val (q : ℚ)
deriving DecidableEq, Repr

/-- IEEE-754 division of the float series entries in main.py line 147:
0.0/0.0 is NaN, a nonzero value over 0.0 is a signed infinity, and any
other quotient is finite. -/
def fltDiv (x y : ℚ) : FloatQ :=
  if y = 0 then
    if x = 0 then FloatQ.nan
    else if 0 < x then FloatQ.posInf
    else FloatQ.negInf
  else FloatQ.val (x / y)

/-- .round(2) on a float cell: NaN and the infinities round to themselves,
finite values to two decimals. -/
def round2F : FloatQ → FloatQ
  | FloatQ.val q => FloatQ.val (round2 q)
  | x => x

/-- The comparison ratio < 0.8 of main.py line 152 on a float cell: every
comparison with NaN is False, a negative infinity is below every bound and
a positive infinity above. -/
def fltLt (a : FloatQ) (b : ℚ) : Bool :=
  match a with
  | FloatQ.nan => false
  | FloatQ.posInf => false
  | FloatQ.negInf => true
  | FloatQ.val q => decide (q < b)

/-- Adverse impact measure of one group: its rate over the maximal rate,
rounded to two decimals (main.py line 147).  When the maximal rate is zero
the division yields a float error value (NaN at 0.0/0.0) instead of a
number. -/
def airOf (store : List (String × ℚ)) (g : String) : FloatQ :=
  round2F (fltDiv (groupRate store g) (maxRate store))

/-- The four-fifths flag of main.py lines 151-155: the NaN of an all-zero
store compares as not-below-0.8, so the else branch prints fair. -/
def flagOf (store : List (String × ℚ)) (g : String) : String :=
  if fltLt (airOf store g) (4 / 5) then "potential bias" else "fair"

/- ### Section 6: session state and action handlers (main.py lines 34-110)

The Streamlit session keys questions, answers and score, together with the
two button handlers.  Each handler wraps its single model call in
try/except; every session mutation is sequenced after the call inside the
try block, so a raising call leaves the state untouched and the except arm
only renders the error.  The model response is passed in as an Except value. -/

/-- The mutable session keys of main.py lines 34-40. -/
structure SessionState where
  questions : List String
  answers : List String
  score : Option ℤ
deriving DecidableEq, Repr

/-- The Generate Interview Questions handler (main.py lines 65-80): on a
successful model call the questions are re-extracted and the answers are
reset to index-aligned empty strings; the score key is not touched.  On a
raised call the except arm only displays the error. -/
def generateHandler (s : SessionState) (resp : Except String String) : SessionState :=
  match resp with
  | Except.error _ => s
  | Except.ok text =>
    { questions := extractQuestions text,
      answers := List.replicate (extractQuestions text).length "",
      score := s.score }

/-- The Analyze Answers handler (main.py lines 95-110): on success the score
is set from the feedback text; questions and answers are unchanged; on a
raised call the except arm only displays the error. -/
def analyzeHandler (s : SessionState) (resp : Except String String) : SessionState :=
  match resp with
  | Except.error _ => s
  | Except.ok feedback => { s with score := some (extractScore feedback) }

/- ### Theorems.  Helper lemmas first, then one theorem per claim
(with witness or counterexample theorems as needed). -/

theorem le_listMaxQ {l : List ℚ} {a : ℚ} (h : a ∈ l) : a ≤ listMaxQ l := by
  induction l with
  | nil => cases h
  | cons x xs ih =>
    cases xs with
    | nil =>
      rcases List.mem_cons.mp h with rfl | hm
      · exact le_refl _
      · cases hm
    | cons y ys =>
      rcases List.mem_cons.mp h with rfl | hm
      · exact le_max_left _ _
      · exact le_trans (ih hm) (le_max_right _ _)

theorem listMaxQ_mem {l : List ℚ} (h : l ≠ []) : listMaxQ l ∈ l := by
  induction l with
  | nil => exact absurd rfl h
  | cons x xs ih =>
    cases xs with
    | nil => exact List.mem_cons_self _ _
    | cons y ys =>
      show max x (listMaxQ (y :: ys)) ∈ _
      rcases max_choice x (listMaxQ (y :: ys)) with h1 | h1 <;> rw [h1]
      · exact List.mem_cons_self _ _
      · exact List.mem_cons_of_mem _ (ih (by simp))

theorem groupRate_nonneg (store : List (String × ℚ)) (hnn : ∀ r ∈ store, 0 ≤ r.2)
    (g : String) : 0 ≤ groupRate store g := by
  unfold groupRate
  apply div_nonneg
  · apply List.sum_nonneg
    intro x hx
    rcases List.mem_map.mp hx with ⟨r, hr, rfl⟩
    exact hnn r (List.mem_filter.mp hr).1
  · exact Nat.cast_nonneg _

theorem groupRate_le_maxRate (store : List (String × ℚ)) (g : String)
    (hg : g ∈ groupsOf store) : groupRate store g ≤ maxRate store :=
  le_listMaxQ (List.mem_map.mpr ⟨g, hg, rfl⟩)

theorem maxRate_attained (store : List (String × ℚ)) (h : store ≠ []) :
    ∃ g ∈ groupsOf store, groupRate store g = maxRate store := by
  have hne : groupsOf store ≠ [] := by
    cases store with
    | nil => exact absurd rfl h
    | cons r rs =>
      intro hgs
      have hmem : r.1 ∈ groupsOf (r :: rs) :=
        List.mem_dedup.mpr (List.mem_map.mpr ⟨r, List.mem_cons_self _ _, rfl⟩)
      rw [hgs] at hmem
      cases hmem
  have hmapne : (groupsOf store).map (groupRate store) ≠ [] := by
    simpa using hne
  rcases List.mem_map.mp (listMaxQ_mem hmapne) with ⟨g, hg, hval⟩
  exact ⟨g, hg, hval⟩

theorem maxRate_pos (store : List (String × ℚ)) (hnn : ∀ r ∈ store, 0 ≤ r.2)
    (hpos : ∃ r ∈ store, 0 < r.2) : 0 < maxRate store := by
  rcases hpos with ⟨r, hr, hrpos⟩
  have hg : r.1 ∈ groupsOf store :=
    List.mem_dedup.mpr (List.mem_map.mpr ⟨r, hr, rfl⟩)
  have hrate : 0 < groupRate store r.1 := by
    unfold groupRate
    apply div_pos
    · have hnnsel : ∀ x ∈ (store.filter (fun q => q.1 == r.1)).map Prod.snd, 0 ≤ x := by
        intro x hx
        rcases List.mem_map.mp hx with ⟨q, hq, rfl⟩
        exact hnn q (List.mem_filter.mp hq).1
      have hmem : r.2 ∈ (store.filter (fun q => q.1 == r.1)).map Prod.snd :=
        List.mem_map.mpr ⟨r, List.mem_filter.mpr ⟨hr, by simp⟩, rfl⟩
      have hub := List.single_le_sum hnnsel r.2 hmem
      linarith
    · have hfne : (store.filter (fun q => q.1 == r.1)) ≠ [] := by
        intro hnil
        have : r ∈ store.filter (fun q => q.1 == r.1) :=
          List.mem_filter.mpr ⟨hr, by simp⟩
        rw [hnil] at this
        cases this
      have : 0 < (store.filter (fun q => q.1 == r.1)).length := List.length_pos.mpr hfne
      simp only [List.length_map]
      exact_mod_cast this
  exact lt_of_lt_of_le hrate (groupRate_le_maxRate store r.1 hg)

theorem round2_zero : round2 0 = 0 := by norm_num [round2]

theorem round2_one : round2 1 = 1 := by norm_num [round2]

theorem round2_bounds {x : ℚ} (h0 : 0 ≤ x) (h1 : x ≤ 1) :
    0 ≤ round2 x ∧ round2 x ≤ 1 := by
  unfold round2
  constructor
  · apply div_nonneg _ (by norm_num)
    have hz : (0:ℤ) ≤ round (100 * x) := by
      rw [round_eq]
      apply Int.le_floor.mpr
      push_cast
      nlinarith
    exact_mod_cast hz
  · rw [div_le_one (by norm_num)]
    have hz : round (100 * x) ≤ 100 := by
      rw [round_eq]
      have hfl : ⌊(100:ℚ) * x + 1/2⌋ < 101 := Int.floor_lt.mpr (by push_cast; nlinarith)
      omega
    exact_mod_cast hz

/-- C1 (amended): for a non-empty store with non-negative Selected entries
and at least one positive entry, the analyzer of main.py lines 143-155
satisfies: some group attains the maximal rate; every group attaining the
maximal rate has the finite AIR 1.0 and is reported fair; every AIR is a
finite value in [0, 1]; a group with zero mean has AIR 0.0 and is reported
as potential bias; and a group is reported as potential bias exactly when
its AIR compares below 4/5.  (Without a positive entry the division is
0.0/0.0 = NaN and these invariants fail, see the counterexample.) -/
theorem c1_fairnessAnalyzer (store : List (String × ℚ))
    (hne : store ≠ [])
    (hnn : ∀ r ∈ store, 0 ≤ r.2)
    (hpos : ∃ r ∈ store, 0 < r.2) :
    (∃ g ∈ groupsOf store, groupRate store g = maxRate store) ∧
    (∀ g ∈ groupsOf store, groupRate store g = maxRate store →
      airOf store g = FloatQ.val 1 ∧ flagOf store g = "fair") ∧
    (∀ g ∈ groupsOf store, ∃ q : ℚ, airOf store g = FloatQ.val q ∧ 0 ≤ q ∧ q ≤ 1) ∧
    (∀ g, groupRate store g = 0 →
      airOf store g = FloatQ.val 0 ∧ flagOf store g = "potential bias") ∧
    (∀ g, flagOf store g = "potential bias" ↔ fltLt (airOf store g) (4 / 5) = true) := by
  have hmax := maxRate_pos store hnn hpos
  have hmaxne : maxRate store ≠ 0 := ne_of_gt hmax
  have hval : ∀ g, airOf store g
      = FloatQ.val (round2 (groupRate store g / maxRate store)) := by
    intro g
    unfold airOf fltDiv
    rw [if_neg hmaxne]
    rfl
  refine ⟨maxRate_attained store hne, ?_, ?_, ?_, ?_⟩
  · intro g _ hgmax
    have hair : airOf store g = FloatQ.val 1 := by
      rw [hval g, hgmax, div_self hmaxne, round2_one]
    refine ⟨hair, ?_⟩
    unfold flagOf
    rw [hair, if_neg (by norm_num [fltLt])]
  · intro g hg
    have h0 : 0 ≤ groupRate store g / maxRate store :=
      div_nonneg (groupRate_nonneg store hnn g) (le_of_lt hmax)
    have h1 : groupRate store g / maxRate store ≤ 1 :=
      (div_le_one hmax).mpr (groupRate_le_maxRate store g hg)
    exact ⟨round2 (groupRate store g / maxRate store), hval g,
      (round2_bounds h0 h1).1, (round2_bounds h0 h1).2⟩
  · intro g hzero
    have hair : airOf store g = FloatQ.val 0 := by
      rw [hval g, hzero, zero_div, round2_zero]
    refine ⟨hair, ?_⟩
    unfold flagOf
    rw [hair, if_pos (by norm_num [fltLt])]
  · intro g
    by_cases h : fltLt (airOf store g) (4 / 5) = true
    · rw [flagOf, if_pos h]
      exact ⟨fun _ => h, fun _ => rfl⟩
    · rw [flagOf, if_neg h]
      constructor
      · intro hcontra
        exact absurd hcontra (by decide)
      · intro hcontra
        exact absurd hcontra h

/-- Witness for C1 at the concrete two-record store. -/
theorem c1_fairnessAnalyzer_witness :
    (∃ g ∈ groupsOf [("Male", (1:ℚ)), ("Female", 0)],
       groupRate [("Male", (1:ℚ)), ("Female", 0)] g = maxRate [("Male", (1:ℚ)), ("Female", 0)]) ∧
    (∀ g ∈ groupsOf [("Male", (1:ℚ)), ("Female", 0)],
       groupRate [("Male", (1:ℚ)), ("Female", 0)] g = maxRate [("Male", (1:ℚ)), ("Female", 0)] →
       airOf [("Male", (1:ℚ)), ("Female", 0)] g = FloatQ.val 1 ∧
       flagOf [("Male", (1:ℚ)), ("Female", 0)] g = "fair") ∧
    (∀ g ∈ groupsOf [("Male", (1:ℚ)), ("Female", 0)],
       ∃ q : ℚ, airOf [("Male", (1:ℚ)), ("Female", 0)] g = FloatQ.val q ∧ 0 ≤ q ∧ q ≤ 1) ∧
    (∀ g, groupRate [("Male", (1:ℚ)), ("Female", 0)] g = 0 →
       airOf [("Male", (1:ℚ)), ("Female", 0)] g = FloatQ.val 0 ∧
       flagOf [("Male", (1:ℚ)), ("Female", 0)] g = "potential bias") ∧
    (∀ g, flagOf [("Male", (1:ℚ)), ("Female", 0)] g = "potential bias" ↔
       fltLt (airOf [("Male", (1:ℚ)), ("Female", 0)] g) (4 / 5) = true) :=
  c1_fairnessAnalyzer [("Male", (1:ℚ)), ("Female", 0)] (by decide) (by decide)
    ⟨("Male", 1), by decide, by decide⟩

/-- Counterexample to C1 as stated: in the one-record store with Selected 0
(non-negative rates, non-empty store) the single group Female attains the
maximal rate, yet its AIR is the NaN of 0.0/0.0 — neither the claimed 1.0
for the max-rate group nor the claimed 0.0 for a zero-mean group — and the
NaN < 0.8 comparison is False, so the zero-mean group is reported fair
rather than always flagged. -/
theorem c1_counterexample :
    groupRate [("Female", (0:ℚ))] "Female" = maxRate [("Female", (0:ℚ))] ∧
    maxRate [("Female", (0:ℚ))] = 0 ∧
    airOf [("Female", (0:ℚ))] "Female" = FloatQ.nan ∧
    airOf [("Female", (0:ℚ))] "Female" ≠ FloatQ.val 1 ∧
    airOf [("Female", (0:ℚ))] "Female" ≠ FloatQ.val 0 ∧
    flagOf [("Female", (0:ℚ))] "Female" = "fair" := by
  have h1 : groupRate [("Female", (0:ℚ))] "Female" = 0 := by
    norm_num [groupRate, List.filter_cons]
  have h2 : maxRate [("Female", (0:ℚ))] = 0 := by
    have hm : maxRate [("Female", (0:ℚ))] = groupRate [("Female", (0:ℚ))] "Female" := by
      norm_num [maxRate, groupsOf, listMaxQ]
    rw [hm, h1]
  have hair : airOf [("Female", (0:ℚ))] "Female" = FloatQ.nan := by
    unfold airOf fltDiv
    rw [h1, h2, if_pos rfl, if_pos rfl]
    rfl
  refine ⟨by rw [h1, h2], h2, hair, by rw [hair]; simp, by rw [hair]; simp, ?_⟩
  unfold flagOf
  rw [hair, if_neg (by simp [fltLt])]

/-- C2: the record built by the Fairness Recorder has Selected = 1 exactly
when the score is at least 70 and Selected = 0 otherwise, including
out-of-range scores such as 150 and -5. -/
theorem c2_selectedIffThreshold :
    ∀ (name gender experience jobRole : String) (score : ℤ),
      ((mkResultRecord name gender experience jobRole score).selected = 1 ↔ 70 ≤ score) ∧
      ((mkResultRecord name gender experience jobRole score).selected = 0 ↔ score < 70) ∧
      (mkResultRecord name gender experience jobRole 150).selected = 1 ∧
      (mkResultRecord name gender experience jobRole (-5)).selected = 0 := by
  intro n g e j score
  refine ⟨?_, ?_, by norm_num [mkResultRecord], by norm_num [mkResultRecord]⟩
  · unfold mkResultRecord
    by_cases h : 70 ≤ score
    · simp [h]
    · simp [h]
  · unfold mkResultRecord
    by_cases h : 70 ≤ score
    · simp [h]
    · simp [h]
      omega

/-- C3: the Score Extractor returns the integer parsed from the first digit
run of the first line, the default 75 when the first line has no digits, and
is unclamped: a first line reporting 85/100 yields 85 and a first line
reporting 150 yields 150. -/
theorem c3_scoreExtractor :
    (∀ (t : String) (ds : List Char), searchDigits (firstLineOf t.data) = some ds →
       extractScore t = (digitsToNat ds : ℤ)) ∧
    (∀ t : String, searchDigits (firstLineOf t.data) = none → extractScore t = 75) ∧
    extractScore "85/100 — strong answers\nWeak on SQL though." = 85 ∧
    extractScore "Strong answers overall.\nScore: 90/100" = 75 ∧
    extractScore "150 — far beyond the scale\nunclamped" = 150 := by
  refine ⟨?_, ?_, by decide, by decide, by decide⟩
  · intro t ds h
    unfold extractScore
    rw [h]
  · intro t h
    unfold extractScore
    rw [h]

/-- Witness for C3: a feedback text without digits on its first line takes
the default 75. -/
theorem c3_scoreExtractor_witness : extractScore "Good effort\n80/100" = 75 :=
  c3_scoreExtractor.2.1 "Good effort\n80/100" (by decide)

/-- C10: the Score Extractor can never produce a negative score: the digit
run cannot capture a minus sign, so a first line reporting -5 parses as 5,
and the fallback 75 is non-negative. -/
theorem c10_scoreNeverNegative :
    (∀ t : String, 0 ≤ extractScore t) ∧
    extractScore "-5 — answers offered nothing\nretry" = 5 := by
  refine ⟨?_, by decide⟩
  intro t
  unfold extractScore
  cases h : searchDigits (firstLineOf t.data) with
  | none => norm_num
  | some ds => exact Int.natCast_nonneg _

/-- C8: when the model call of the generate action or of the analyze action
raises, the handler returns the session state unchanged: the error is caught
at the action boundary (only rendered), so the action can be retried. -/
theorem c8_failureLeavesStateUnchanged :
    ∀ (s : SessionState) (e : String),
      generateHandler s (Except.error e) = s ∧ analyzeHandler s (Except.error e) = s := by
  intro s e
  exact ⟨rfl, rfl⟩

/-- C9 (amended): a successful generate action replaces the questions with
the freshly extracted ones and resets the answers to index-aligned empty
strings of matching length, discarding prior answers; the prior score is
retained in the session, not discarded. -/
theorem c9_generateResets :
    ∀ (s : SessionState) (text : String),
      (generateHandler s (Except.ok text)).questions = extractQuestions text ∧
      (generateHandler s (Except.ok text)).answers
        = List.replicate (extractQuestions text).length "" ∧
      (generateHandler s (Except.ok text)).answers.length
        = (generateHandler s (Except.ok text)).questions.length ∧
      (generateHandler s (Except.ok text)).score = s.score := by
  intro s text
  refine ⟨rfl, rfl, ?_, rfl⟩
  simp [generateHandler]

/-- Counterexample to C9 as stated: after a successful generate on a session
holding score 80, the score is still 80 rather than discarded. -/
theorem c9_counterexample :
    (generateHandler ⟨["Old question?"], ["old answer"], some 80⟩
        (Except.ok "1. New question?")).score = some 80 ∧
    some (80:ℤ) ≠ none :=
  ⟨rfl, by decide⟩

theorem lenTakeWhileLe {α : Type} (p : α → Bool) (l : List α) :
    (l.takeWhile p).length ≤ l.length := by
  induction l with
  | nil => simp
  | cons x xs ih =>
    rw [List.takeWhile_cons]
    by_cases h : p x = true
    · simp [h]
      omega
    · simp [h]

theorem lenDropWhileLe {α : Type} (p : α → Bool) (l : List α) :
    (l.dropWhile p).length ≤ l.length := by
  induction l with
  | nil => simp
  | cons x xs ih =>
    rw [List.dropWhile_cons]
    by_cases h : p x = true
    · simp [h]
      omega
    · simp [h]

theorem takeWhile_append_all {α : Type} (p : α → Bool) (xs ys : List α)
    (h : ∀ a ∈ xs, p a = true) :
    (xs ++ ys).takeWhile p = xs ++ ys.takeWhile p := by
  induction xs with
  | nil => rfl
  | cons x xs ih =>
    rw [List.cons_append, List.takeWhile_cons, if_pos (h x (List.mem_cons_self _ _)),
      ih (fun a ha => h a (List.mem_cons_of_mem _ ha))]
    rfl

theorem dropWhile_append_all {α : Type} (p : α → Bool) (xs ys : List α)
    (h : ∀ a ∈ xs, p a = true) :
    (xs ++ ys).dropWhile p = ys.dropWhile p := by
  induction xs with
  | nil => rfl
  | cons x xs ih =>
    rw [List.cons_append, List.dropWhile_cons, if_pos (h x (List.mem_cons_self _ _))]
    exact ih (fun a ha => h a (List.mem_cons_of_mem _ ha))

theorem matchNumberedAt_none (c : Char) (cs : List Char) (hc : c.isDigit = false) :
    matchNumberedAt (c :: cs) = none := by
  unfold matchNumberedAt
  simp [List.takeWhile_cons, hc]

theorem matchNumberedAt_lt (cs cap after : List Char)
    (h : matchNumberedAt cs = some (cap, after)) : after.length < cs.length := by
  simp only [matchNumberedAt] at h
  split at h
  · cases h
  · rename_i hds
    split at h
    · rename_i d rest hdl
      split at h
      · cases h
      · simp only [Option.some.injEq, Prod.mk.injEq] at h
        have hrest : rest.length + 1 <= cs.length := by
          have hle := lenDropWhileLe Char.isDigit cs
          rw [hdl] at hle
          simpa using hle
        have h1 := lenDropWhileLe (fun c => c != '\n') (rest.dropWhile isPySpace)
        have h2 := lenDropWhileLe isPySpace rest
        rw [h.2] at h1
        omega
    · cases h

theorem findallAux_congr : ∀ (n : ℕ) (cs : List Char) (f g : ℕ),
    cs.length = n → n ≤ f → n ≤ g → findallAux f cs = findallAux g cs := by
  intro n
  induction n using Nat.strong_induction_on with
  | _ n ih =>
    intro cs f g hlen hf hg
    cases cs with
    | nil =>
      cases f <;> cases g <;> rfl
    | cons c cs =>
      rw [List.length_cons] at hlen
      cases f with
      | zero => omega
      | succ f =>
        cases g with
        | zero => omega
        | succ g =>
          simp only [findallAux]
          cases hm : matchNumberedAt (c :: cs) with
          | none =>
            exact ih cs.length (by omega) cs f g rfl (by omega) (by omega)
          | some p =>
            cases p with
            | mk cap after =>
              have hlt := matchNumberedAt_lt _ _ _ hm
              have hafter : after.length < n := by
                rw [← hlen]; exact hlt
              exact congrArg (cap :: ·)
                (ih after.length hafter after f g rfl (by omega) (by omega))

theorem findallNumbered_cons_some {c : Char} {cs cap after : List Char}
    (h : matchNumberedAt (c :: cs) = some (cap, after)) :
    findallNumbered (c :: cs) = cap :: findallNumbered after := by
  show findallAux (cs.length + 1) (c :: cs) = _
  simp only [findallAux]
  rw [h]
  have hlt := matchNumberedAt_lt _ _ _ h
  exact congrArg (cap :: ·)
    (findallAux_congr after.length after cs.length after.length rfl
      (by simp at hlt; omega) (le_refl _))

theorem findallNumbered_cons_none {c : Char} {cs : List Char}
    (h : matchNumberedAt (c :: cs) = none) :
    findallNumbered (c :: cs) = findallNumbered cs := by
  show findallAux (cs.length + 1) (c :: cs) = _
  simp only [findallAux]
  rw [h]
  rfl

theorem findall_skip (pre suf : List Char) (h : ∀ c ∈ pre, c.isDigit = false) :
    findallNumbered (pre ++ suf) = findallNumbered suf := by
  induction pre with
  | nil => rfl
  | cons c pre ih =>
    rw [List.cons_append,
      findallNumbered_cons_none (matchNumberedAt_none c _ (h c (List.mem_cons_self _ _))),
      ih (fun a ha => h a (List.mem_cons_of_mem _ ha))]

theorem dropWhile_head_false {α : Type} (p : α → Bool) (l : List α) (y : α) (ys : List α)
    (h : l.dropWhile p = y :: ys) : p y = false := by
  induction l with
  | nil => cases h
  | cons x xs ih =>
    rw [List.dropWhile_cons] at h
    by_cases hp : p x = true
    · rw [if_pos hp] at h
      exact ih h
    · rw [if_neg hp] at h
      cases h
      simpa using hp

theorem matchNumberedAt_wellFormed (l suf : List Char)
    (hnl : '\n' ∉ l) (hw : wellFormedNumbered l = true)
    (hsuf : suf = [] ∨ ∃ s, suf = '\n' :: s) :
    matchNumberedAt (l ++ suf) = some (captureOf l, suf) := by
  unfold wellFormedNumbered at hw
  rw [Bool.and_eq_true] at hw
  obtain ⟨hds, hm⟩ := hw
  rw [Bool.not_eq_true'] at hds
  split at hm
  case _ rest heq =>
    rw [Bool.and_eq_true, Bool.not_eq_true', Bool.not_eq_true'] at hm
    obtain ⟨hws, ht⟩ := hm
    have hdall : ∀ a ∈ l.takeWhile Char.isDigit, Char.isDigit a = true :=
      fun a ha => List.mem_takeWhile_imp ha
    have hLsplit : l = l.takeWhile Char.isDigit ++ ('.' :: rest) := by
      conv_lhs => rw [← List.takeWhile_append_dropWhile Char.isDigit l]
      rw [heq]
    obtain ⟨y, ys, hyt⟩ : ∃ y ys, rest.dropWhile isPySpace = y :: ys := by
      cases hd : rest.dropWhile isPySpace with
      | nil => rw [hd] at ht; simp at ht
      | cons y ys => exact ⟨y, ys, rfl⟩
    have hy : isPySpace y = false := dropWhile_head_false isPySpace rest y ys hyt
    have hwall : ∀ a ∈ rest.takeWhile isPySpace, isPySpace a = true :=
      fun a ha => List.mem_takeWhile_imp ha
    have hRsplit : rest = rest.takeWhile isPySpace ++ (y :: ys) := by
      conv_lhs => rw [← List.takeWhile_append_dropWhile isPySpace rest]
      rw [hyt]
    have htw1 : (l ++ suf).takeWhile Char.isDigit = l.takeWhile Char.isDigit := by
      conv_lhs => rw [hLsplit]
      rw [List.append_assoc, takeWhile_append_all _ _ _ hdall, List.cons_append,
        List.takeWhile_cons, if_neg (by simp)]
      simp
    have hdw1 : (l ++ suf).dropWhile Char.isDigit = '.' :: (rest ++ suf) := by
      conv_lhs => rw [hLsplit]
      rw [List.append_assoc, dropWhile_append_all _ _ _ hdall, List.cons_append,
        List.dropWhile_cons, if_neg (by simp)]
    have htw2 : (rest ++ suf).takeWhile isPySpace = rest.takeWhile isPySpace := by
      conv_lhs => rw [hRsplit]
      rw [List.append_assoc, takeWhile_append_all _ _ _ hwall, List.cons_append,
        List.takeWhile_cons, if_neg (by simp [hy])]
      simp
    have hdw2 : (rest ++ suf).dropWhile isPySpace = (y :: ys) ++ suf := by
      conv_lhs => rw [hRsplit]
      rw [List.append_assoc, dropWhile_append_all _ _ _ hwall, List.cons_append,
        List.dropWhile_cons, if_neg (by simp [hy])]
    have htnl : ∀ a ∈ y :: ys, (a != '\n') = true := by
      intro a ha
      have h1 : a ∈ rest.dropWhile isPySpace := by rw [hyt]; exact ha
      have h2 : a ∈ rest := (List.dropWhile_sublist isPySpace).subset h1
      have h3 : a ∈ l.dropWhile Char.isDigit := by
        rw [heq]; exact List.mem_cons_of_mem _ h2
      have hal : a ∈ l := (List.dropWhile_sublist Char.isDigit).subset h3
      have hane : a ≠ '\n' := fun hEq => hnl (hEq ▸ hal)
      simpa using hane
    have hsufTW : suf.takeWhile (fun c => c != '\n') = [] := by
      rcases hsuf with rfl | ⟨s, rfl⟩
      · rfl
      · rw [List.takeWhile_cons, if_neg (by simp)]
    have hsufDW : suf.dropWhile (fun c => c != '\n') = suf := by
      rcases hsuf with rfl | ⟨s, rfl⟩
      · rfl
      · rw [List.dropWhile_cons, if_neg (by simp)]
    have htw3 : ((y :: ys) ++ suf).takeWhile (fun c => c != '\n') = y :: ys := by
      rw [takeWhile_append_all _ _ _ htnl, hsufTW, List.append_nil]
    have hdw3 : ((y :: ys) ++ suf).dropWhile (fun c => c != '\n') = suf := by
      rw [dropWhile_append_all _ _ _ htnl, hsufDW]
    have hcap : captureOf l = y :: ys := by
      unfold captureOf
      rw [heq]
      exact hyt
    simp only [matchNumberedAt]
    rw [htw1, if_neg (by simp [hds]), hdw1]
    split
    · rename_i r hr
      injection hr with _ hr2
      subst hr2
      rw [htw2, if_neg (by simp [hws]), hdw2, htw3, hdw3, hcap]
    · rename_i hcontra
      exact (hcontra (rest ++ suf) rfl).elim
  case _ =>
    cases hm

theorem digitFree_not_wellFormed {l : List Char} (h : ∀ c ∈ l, c.isDigit = false) :
    wellFormedNumbered l = false := by
  cases l with
  | nil => rfl
  | cons c cs =>
    unfold wellFormedNumbered
    rw [List.takeWhile_cons, if_neg (by simp [h c (List.mem_cons_self _ _)])]
    rfl

theorem wellFormed_ne_nil {l : List Char} (hw : wellFormedNumbered l = true) : l ≠ [] := by
  intro hEq
  subst hEq
  exact absurd hw (by decide)

theorem findall_on_lines (lines : List (List Char))
    (h : ∀ l ∈ lines, '\n' ∉ l ∧ ((∀ c ∈ l, c.isDigit = false) ∨ wellFormedNumbered l = true)) :
    findallNumbered (joinLines lines) = (lines.filter wellFormedNumbered).map captureOf := by
  induction lines with
  | nil => rfl
  | cons l rest ih =>
    obtain ⟨hnl, hcase⟩ := h l (List.mem_cons_self _ _)
    have hrest := fun a ha => h a (List.mem_cons_of_mem _ ha)
    cases rest with
    | nil =>
      show findallNumbered l = _
      rcases hcase with hdf | hwf
      · have h1 : findallNumbered (l ++ []) = findallNumbered [] := findall_skip l [] hdf
        rw [List.append_nil] at h1
        rw [h1, List.filter_cons, if_neg (by simp [digitFree_not_wellFormed hdf])]
        rfl
      · have hm := matchNumberedAt_wellFormed l [] hnl hwf (Or.inl rfl)
        rw [List.append_nil] at hm
        obtain ⟨c, cs, rfl⟩ : ∃ c cs, l = c :: cs := by
          cases l with
          | nil => exact absurd rfl (wellFormed_ne_nil hwf)
          | cons c cs => exact ⟨c, cs, rfl⟩
        rw [findallNumbered_cons_some hm, List.filter_cons, if_pos hwf]
        rfl
    | cons m rest2 =>
      have hjoin : joinLines (l :: m :: rest2) = l ++ '\n' :: joinLines (m :: rest2) := rfl
      rw [hjoin]
      rcases hcase with hdf | hwf
      · have hpre : ∀ c ∈ (l ++ ['\n']), c.isDigit = false := by
          intro c hc
          rcases List.mem_append.mp hc with h1 | h1
          · exact hdf c h1
          · simp at h1
            subst h1
            rfl
        have hskip := findall_skip (l ++ ['\n']) (joinLines (m :: rest2)) hpre
        rw [List.append_assoc, List.singleton_append] at hskip
        have hfil : (l :: m :: rest2).filter wellFormedNumbered
            = (m :: rest2).filter wellFormedNumbered := by
          rw [List.filter_cons, if_neg (by simp [digitFree_not_wellFormed hdf])]
        rw [hskip, ih hrest, hfil]
      · have hm := matchNumberedAt_wellFormed l ('\n' :: joinLines (m :: rest2)) hnl hwf
          (Or.inr ⟨_, rfl⟩)
        obtain ⟨c, cs, rfl⟩ : ∃ c cs, l = c :: cs := by
          cases l with
          | nil => exact absurd rfl (wellFormed_ne_nil hwf)
          | cons c cs => exact ⟨c, cs, rfl⟩
        rw [List.cons_append] at hm
        have hfil : ((c :: cs) :: m :: rest2).filter wellFormedNumbered
            = (c :: cs) :: (m :: rest2).filter wellFormedNumbered := by
          rw [List.filter_cons, if_pos hwf]
        rw [List.cons_append, findallNumbered_cons_some hm,
          findallNumbered_cons_none (matchNumberedAt_none '\n' _ rfl),
          ih hrest, hfil]
        rfl

/-- C4 (amended): the Question Extractor returns the captures of the
pattern matches in order of appearance; on a text whose lines each either
contain no digits or are well-formed numbered lines, it yields exactly one
item per well-formed numbered line, in order, non-matching lines silently
dropped; when no line is well formed (all lines digit-free) it yields the
empty sequence rather than an error.  (As stated the claim is false: a match
of the pattern may begin mid-line, see the counterexample.) -/
theorem c4_questionExtractor (lines : List (List Char))
    (h : ∀ l ∈ lines, '\n' ∉ l ∧ ((∀ c ∈ l, c.isDigit = false) ∨ wellFormedNumbered l = true)) :
    findallNumbered (joinLines lines) = (lines.filter wellFormedNumbered).map captureOf ∧
    (findallNumbered (joinLines lines)).length = (lines.filter wellFormedNumbered).length ∧
    ((∀ l ∈ lines, ∀ c ∈ l, c.isDigit = false) → findallNumbered (joinLines lines) = []) := by
  have hmain := findall_on_lines lines h
  refine ⟨hmain, by rw [hmain, List.length_map], ?_⟩
  intro hall
  rw [hmain]
  have : lines.filter wellFormedNumbered = [] := by
    rw [List.filter_eq_nil_iff]
    intro l hl
    simp [digitFree_not_wellFormed (hall l hl)]
  rw [this]
  rfl

/-- Witness for C4 on a concrete three-line text with two well-formed
numbered lines and one digit-free line. -/
theorem c4_questionExtractor_witness :
    findallNumbered (joinLines ["1. Define overfitting.".data, "some notes".data,
        "2. What is SQL?".data])
      = ([ "1. Define overfitting.".data, "some notes".data,
        "2. What is SQL?".data].filter wellFormedNumbered).map captureOf ∧
    (findallNumbered (joinLines ["1. Define overfitting.".data, "some notes".data,
        "2. What is SQL?".data])).length
      = ([ "1. Define overfitting.".data, "some notes".data,
        "2. What is SQL?".data].filter wellFormedNumbered).length ∧
    ((∀ l ∈ ["1. Define overfitting.".data, "some notes".data,
        "2. What is SQL?".data], ∀ c ∈ l, c.isDigit = false) →
      findallNumbered (joinLines ["1. Define overfitting.".data, "some notes".data,
        "2. What is SQL?".data]) = []) :=
  c4_questionExtractor
    ["1. Define overfitting.".data, "some notes".data, "2. What is SQL?".data]
    (by decide)

/-- Counterexample to C4 as stated: the single-line text "see note 3. below"
contains zero well-formed numbered lines, yet the extractor yields the one
item "below" (the pattern matches mid-line), not the empty sequence. -/
theorem c4_counterexample :
    wellFormedNumbered ("see note 3. below".data) = false ∧
    extractQuestions "see note 3. below" = ["below"] := by
  constructor
  · decide
  · decide

theorem hasEdge_iff {α : Type} [DecidableEq α] (l : List α) (u v : α) :
    hasEdge l u v = true ↔
      (u ≠ v ∧ u ∈ l ∧ v ∈ l) ∨ (u = v ∧ 2 ≤ l.count u) := by
  induction l with
  | nil =>
    constructor
    · intro h
      simp [hasEdge, allPairs] at h
    · intro h
      rcases h with ⟨_, hu, _⟩ | ⟨_, hc⟩
      · cases hu
      · simp at hc
  | cons x xs ih =>
    constructor
    · intro h
      unfold hasEdge at h
      rw [show allPairs (x :: xs) = (xs.map (fun y => (x, y))) ++ allPairs xs from rfl,
        List.any_append, Bool.or_eq_true] at h
      rcases h with h | h
      · rw [List.any_eq_true] at h
        obtain ⟨p, hp, hpm⟩ := h
        obtain ⟨y, hy, rfl⟩ := List.mem_map.mp hp
        simp only [Bool.or_eq_true, Bool.and_eq_true, decide_eq_true_eq] at hpm
        rcases hpm with ⟨rfl, rfl⟩ | ⟨rfl, rfl⟩
        · by_cases huv : x = y
          · right
            refine ⟨huv, ?_⟩
            have hvxs : x ∈ xs := by rw [huv]; exact hy
            have hpos := List.count_pos_iff.mpr hvxs
            rw [List.count_cons_self]
            omega
          · exact Or.inl ⟨huv, List.mem_cons_self _ _, List.mem_cons_of_mem _ hy⟩
        · by_cases huv : y = x
          · right
            refine ⟨huv, ?_⟩
            have hpos := List.count_pos_iff.mpr hy
            rw [List.count_cons, if_pos (by simp [huv])]
            omega
          · exact Or.inl ⟨huv, List.mem_cons_of_mem _ hy, List.mem_cons_self _ _⟩
      · have hx := ih.mp h
        rcases hx with ⟨hne, hu, hv⟩ | ⟨heq, hc⟩
        · exact Or.inl ⟨hne, List.mem_cons_of_mem _ hu, List.mem_cons_of_mem _ hv⟩
        · right
          refine ⟨heq, ?_⟩
          rw [List.count_cons]
          split <;> omega
    · intro h
      unfold hasEdge
      rw [show allPairs (x :: xs) = (xs.map (fun y => (x, y))) ++ allPairs xs from rfl,
        List.any_append, Bool.or_eq_true]
      rcases h with ⟨hne, hu, hv⟩ | ⟨rfl, hc⟩
      · rcases List.mem_cons.mp hu with rfl | hu2
        · have hv2 : v ∈ xs := by
            rcases List.mem_cons.mp hv with rfl | hv2
            · exact absurd rfl hne
            · exact hv2
          left
          rw [List.any_eq_true]
          exact ⟨(u, v), List.mem_map.mpr ⟨v, hv2, rfl⟩, by simp⟩
        · rcases List.mem_cons.mp hv with rfl | hv2
          · left
            rw [List.any_eq_true]
            exact ⟨(v, u), List.mem_map.mpr ⟨u, hu2, rfl⟩, by simp⟩
          · right
            exact ih.mpr (Or.inl ⟨hne, hu2, hv2⟩)
      · by_cases hx : x = u
        · subst hx
          rw [List.count_cons_self] at hc
          have hmem : x ∈ xs := List.count_pos_iff.mp (by omega)
          left
          rw [List.any_eq_true]
          exact ⟨(x, x), List.mem_map.mpr ⟨x, hmem, rfl⟩, by simp⟩
        · rw [List.count_cons, if_neg (by simp [hx])] at hc
          right
          exact ih.mpr (Or.inr ⟨rfl, by omega⟩)

/-- C5 (amended): the node set of the skills graph is the set of distinct
matches; the edge set is the complete graph over the distinct nodes PLUS a
self-loop at every node whose skill occurs at least twice in the raw match
list (add_edge over the duplicated list).  On the example text the matches
are Python, SQL, Python, the nodes are the two distinct skills, and both
the edge (Python, SQL) and the self-loop (Python, Python) are present.
(As stated the claim is false: it asserts exactly one edge, see the
counterexample.) -/
theorem c5_skillsGraph :
    (∀ (text : String) (x : String), x ∈ skillNodes text ↔ x ∈ extractSkills text) ∧
    (∀ (text : String) (u v : String),
      hasEdge (extractSkills text) u v = true ↔
        ((u ≠ v ∧ u ∈ extractSkills text ∧ v ∈ extractSkills text) ∨
         (u = v ∧ 2 ≤ (extractSkills text).count u))) ∧
    extractSkills "Python, SQL and Python again" = ["Python", "SQL", "Python"] ∧
    ("Python" ∈ skillNodes "Python, SQL and Python again" ∧
     "SQL" ∈ skillNodes "Python, SQL and Python again" ∧
     (skillNodes "Python, SQL and Python again").length = 2) ∧
    hasEdge (extractSkills "Python, SQL and Python again") "Python" "SQL" = true := by
  refine ⟨?_, ?_, by decide, by decide, by decide⟩
  · intro text x
    exact List.mem_dedup
  · intro text u v
    exact hasEdge_iff _ u v

/-- Counterexample to C5 as stated: on the example text the self-loop
(Python, Python) is also an edge of the graph, so the edge set is not the
single edge (Python, SQL). -/
theorem c5_counterexample :
    extractSkills "Python, SQL and Python again" = ["Python", "SQL", "Python"] ∧
    hasEdge (extractSkills "Python, SQL and Python again") "Python" "Python" = true := by
  constructor
  · decide
  · decide

theorem digitChar_isDigit (k : ℕ) : (digitChar k).isDigit = true := by
  by_cases h : k < 9
  · interval_cases k <;> rfl
  · obtain ⟨m, rfl⟩ : ∃ m, k = m + 9 := ⟨k - 9, by omega⟩
    rfl

theorem digitChar_val (k : ℕ) (h : k < 10) : (digitChar k).toNat - 48 = k := by
  interval_cases k <;> rfl

theorem digitsToNat_append_digit (xs : List Char) (c : Char) :
    digitsToNat (xs ++ [c]) = 10 * digitsToNat xs + (c.toNat - 48) := by
  unfold digitsToNat
  rw [List.foldl_append]
  rfl

theorem natToDigitsAux_val : ∀ f n : ℕ, n ≤ f → digitsToNat (natToDigitsAux f n) = n := by
  intro f
  induction f using Nat.strong_induction_on with
  | _ f ih =>
    intro n hn
    cases f with
    | zero =>
      have hz : n = 0 := by omega
      subst hz
      rfl
    | succ f =>
      rw [show natToDigitsAux (f + 1) n
          = if n < 10 then [digitChar n]
            else natToDigitsAux f (n / 10) ++ [digitChar (n % 10)] from rfl]
      by_cases h : n < 10
      · rw [if_pos h]
        have hone : digitsToNat [digitChar n] = (digitChar n).toNat - 48 := by
          unfold digitsToNat
          simp
        rw [hone, digitChar_val n h]
      · rw [if_neg h]
        rw [digitsToNat_append_digit,
          ih f (by omega) (n / 10) (by omega), digitChar_val (n % 10) (by omega)]
        omega

theorem natToDigitsAux_all_digits : ∀ f n : ℕ, ∀ c ∈ natToDigitsAux f n, c.isDigit = true := by
  intro f
  induction f using Nat.strong_induction_on with
  | _ f ih =>
    intro n c hc
    cases f with
    | zero =>
      rw [show natToDigitsAux 0 n = [digitChar n] from rfl] at hc
      rw [List.mem_singleton.mp hc]
      exact digitChar_isDigit n
    | succ f =>
      rw [show natToDigitsAux (f + 1) n
          = if n < 10 then [digitChar n]
            else natToDigitsAux f (n / 10) ++ [digitChar (n % 10)] from rfl] at hc
      by_cases h : n < 10
      · rw [if_pos h] at hc
        rw [List.mem_singleton.mp hc]
        exact digitChar_isDigit n
      · rw [if_neg h] at hc
        rcases List.mem_append.mp hc with h1 | h1
        · exact ih f (by omega) (n / 10) c h1
        · rw [List.mem_singleton.mp h1]
          exact digitChar_isDigit (n % 10)

theorem natToDigitsAux_ne_nil (f n : ℕ) : natToDigitsAux f n ≠ [] := by
  cases f with
  | zero => simp [natToDigitsAux]
  | succ f =>
    rw [show natToDigitsAux (f + 1) n
        = if n < 10 then [digitChar n]
          else natToDigitsAux f (n / 10) ++ [digitChar (n % 10)] from rfl]
    by_cases h : n < 10
    · rw [if_pos h]
      simp
    · rw [if_neg h]
      simp

theorem parseNat_natToDigits (n : ℕ) : parseNatChars (natToDigits n) = some n := by
  unfold parseNatChars
  have h1 : (natToDigits n).isEmpty = false := by
    cases hd : natToDigits n with
    | nil => exact absurd hd (natToDigitsAux_ne_nil n n)
    | cons c cs => rfl
  have h2 : (natToDigits n).all Char.isDigit = true := by
    rw [List.all_eq_true]
    intro c hc
    exact natToDigitsAux_all_digits n n c hc
  rw [if_pos (by simp [h1, h2])]
  rw [show natToDigits n = natToDigitsAux n n from rfl, natToDigitsAux_val n n (le_refl n)]

theorem parseInt_intToChars (i : ℤ) : parseIntChars (intToChars i) = some i := by
  unfold intToChars
  by_cases h : i < 0
  · rw [if_pos h]
    rw [show parseIntChars ('-' :: natToDigits i.natAbs)
        = (parseNatChars (natToDigits i.natAbs)).map (fun n => -(n : ℤ)) from rfl]
    rw [parseNat_natToDigits]
    show some (-((i.natAbs : ℕ) : ℤ)) = some i
    congr 1
    omega
  · rw [if_neg h]
    cases hd : natToDigits i.toNat with
    | nil => exact absurd hd (natToDigitsAux_ne_nil _ _)
    | cons c rest =>
      have hc : c.isDigit = true := by
        apply natToDigitsAux_all_digits i.toNat i.toNat c
        rw [show natToDigits i.toNat = natToDigitsAux i.toNat i.toNat from rfl] at hd
        rw [hd]
        exact List.mem_cons_self _ _
      have hcm : c ≠ '-' := by
        intro hEq
        rw [hEq] at hc
        exact absurd hc (by decide)
      have hred : parseIntChars (c :: rest)
          = (parseNatChars (c :: rest)).map (fun n => (n : ℤ)) := by
        simp only [parseIntChars]
        split
        · rename_i heq
          injection heq with h1 h2
          exact absurd h1 hcm
        · rfl
      rw [hred, ← hd, parseNat_natToDigits]
      show some (((i.toNat : ℕ) : ℤ)) = some i
      congr 1
      omega

theorem csvFold_quoted (t : List Char) (cell : List Char)
    (rowAcc : List (List Char)) (rows : List (List (List Char))) :
    List.foldl csvStep ⟨CsvMode.quoted, cell, rowAcc, rows⟩ (escBody t)
      = ⟨CsvMode.quoted, cell ++ t, rowAcc, rows⟩ := by
  induction t generalizing cell with
  | nil => simp [escBody]
  | cons c t ih =>
    by_cases h : c = '"'
    · subst h
      rw [show escBody ('"' :: t) = '"' :: '"' :: escBody t from by simp [escBody]]
      rw [List.foldl_cons, List.foldl_cons]
      rw [show csvStep ⟨CsvMode.quoted, cell, rowAcc, rows⟩ '"'
          = ⟨CsvMode.quoteInQuoted, cell, rowAcc, rows⟩ from rfl]
      rw [show csvStep ⟨CsvMode.quoteInQuoted, cell, rowAcc, rows⟩ '"'
          = ⟨CsvMode.quoted, cell ++ ['"'], rowAcc, rows⟩ from rfl]
      rw [ih (cell ++ ['"'])]
      simp
    · rw [show escBody (c :: t) = c :: escBody t from by simp [escBody, h]]
      rw [List.foldl_cons]
      have hstep : csvStep ⟨CsvMode.quoted, cell, rowAcc, rows⟩ c
          = ⟨CsvMode.quoted, cell ++ [c], rowAcc, rows⟩ := by
        simp only [csvStep]
        rw [if_neg h]
      rw [hstep, ih (cell ++ [c])]
      simp

theorem csvFold_unquoted (t : List Char) (cell : List Char)
    (rowAcc : List (List Char)) (rows : List (List (List Char)))
    (hsafe : ∀ c ∈ t, c ≠ ',' ∧ c ≠ '"' ∧ c ≠ '\n') :
    List.foldl csvStep ⟨CsvMode.unquoted, cell, rowAcc, rows⟩ t
      = ⟨CsvMode.unquoted, cell ++ t, rowAcc, rows⟩ := by
  induction t generalizing cell with
  | nil => simp
  | cons c t ih =>
    obtain ⟨h1, _, h3⟩ := hsafe c (List.mem_cons_self _ _)
    rw [List.foldl_cons]
    have hstep : csvStep ⟨CsvMode.unquoted, cell, rowAcc, rows⟩ c
        = ⟨CsvMode.unquoted, cell ++ [c], rowAcc, rows⟩ := by
      simp only [csvStep]
      rw [if_neg h1, if_neg h3]
    rw [hstep, ih (cell ++ [c]) (fun a ha => hsafe a (List.mem_cons_of_mem _ ha))]
    simp

theorem csvFold_cell (t : List Char) (rowAcc : List (List Char))
    (rows : List (List (List Char))) :
    List.foldl csvStep ⟨CsvMode.cellStart, [], rowAcc, rows⟩ (escapeCell t)
      = if needsQuote t then ⟨CsvMode.quoteInQuoted, t, rowAcc, rows⟩
        else if t.isEmpty then ⟨CsvMode.cellStart, [], rowAcc, rows⟩
        else ⟨CsvMode.unquoted, t, rowAcc, rows⟩ := by
  by_cases hq : needsQuote t = true
  · rw [if_pos hq]
    unfold escapeCell
    rw [if_pos hq, List.foldl_cons]
    rw [show csvStep ⟨CsvMode.cellStart, [], rowAcc, rows⟩ '"'
        = ⟨CsvMode.quoted, [], rowAcc, rows⟩ from rfl]
    rw [List.foldl_append, csvFold_quoted t [] rowAcc rows]
    rw [show List.foldl csvStep ⟨CsvMode.quoted, [] ++ t, rowAcc, rows⟩ ['"']
        = csvStep ⟨CsvMode.quoted, [] ++ t, rowAcc, rows⟩ '"' from rfl]
    rw [show csvStep ⟨CsvMode.quoted, [] ++ t, rowAcc, rows⟩ '"'
        = ⟨CsvMode.quoteInQuoted, [] ++ t, rowAcc, rows⟩ from rfl]
    simp
  · rw [if_neg hq]
    have hsafe : ∀ c ∈ t, c ≠ ',' ∧ c ≠ '"' ∧ c ≠ '\n' := by
      intro c hc
      have hnc : ¬((c = ',' || c = '"' || c = '\n' || c = '\r') = true) := by
        intro hcon
        apply hq
        unfold needsQuote
        rw [List.any_eq_true]
        exact ⟨c, hc, hcon⟩
      simp only [Bool.or_eq_true, decide_eq_true_eq, not_or] at hnc
      exact ⟨hnc.1.1.1, hnc.1.1.2, hnc.1.2⟩
    unfold escapeCell
    rw [if_neg hq]
    cases t with
    | nil => simp
    | cons c t2 =>
      rw [if_neg (show ¬((c :: t2).isEmpty = true) by simp)]
      rw [List.foldl_cons]
      obtain ⟨h1, h2, h3⟩ := hsafe c (List.mem_cons_self _ _)
      have hstep : csvStep ⟨CsvMode.cellStart, [], rowAcc, rows⟩ c
          = ⟨CsvMode.unquoted, [c], rowAcc, rows⟩ := by
        simp only [csvStep]
        rw [if_neg h2, if_neg h1, if_neg h3]
        rfl
      rw [hstep, csvFold_unquoted t2 [c] rowAcc rows
        (fun a ha => hsafe a (List.mem_cons_of_mem _ ha))]
      rfl

theorem csvFold_cell_comma (t : List Char) (rowAcc : List (List Char))
    (rows : List (List (List Char))) :
    List.foldl csvStep ⟨CsvMode.cellStart, [], rowAcc, rows⟩ (escapeCell t ++ [','])
      = ⟨CsvMode.cellStart, [], rowAcc ++ [t], rows⟩ := by
  rw [List.foldl_append, csvFold_cell]
  by_cases hq : needsQuote t = true
  · rw [if_pos hq]
    rfl
  · rw [if_neg hq]
    by_cases he : t.isEmpty = true
    · rw [if_pos he]
      have ht : t = [] := by
        cases t with
        | nil => rfl
        | cons c cs => cases he
      subst ht
      rfl
    · rw [if_neg he]
      rfl

theorem csvFold_cell_newline (t : List Char) (rowAcc : List (List Char))
    (rows : List (List (List Char))) :
    List.foldl csvStep ⟨CsvMode.cellStart, [], rowAcc, rows⟩ (escapeCell t ++ ['\n'])
      = ⟨CsvMode.cellStart, [], [], rows ++ [rowAcc ++ [t]]⟩ := by
  rw [List.foldl_append, csvFold_cell]
  by_cases hq : needsQuote t = true
  · rw [if_pos hq]
    rfl
  · rw [if_neg hq]
    by_cases he : t.isEmpty = true
    · rw [if_pos he]
      have ht : t = [] := by
        cases t with
        | nil => rfl
        | cons c cs => cases he
      subst ht
      rfl
    · rw [if_neg he]
      rfl

theorem csvFold_row (cells : List (List Char)) (hne : cells ≠ [])
    (rowAcc : List (List Char)) (rows : List (List (List Char))) :
    List.foldl csvStep ⟨CsvMode.cellStart, [], rowAcc, rows⟩ (serializeRow cells)
      = ⟨CsvMode.cellStart, [], [], rows ++ [rowAcc ++ cells]⟩ := by
  induction cells generalizing rowAcc with
  | nil => exact absurd rfl hne
  | cons t cells ih =>
    cases cells with
    | nil =>
      show List.foldl csvStep _ (escapeCell t ++ ['\n']) = _
      rw [csvFold_cell_newline]
    | cons t2 cells2 =>
      have hser : serializeRow (t :: t2 :: cells2)
          = (escapeCell t ++ [',']) ++ serializeRow (t2 :: cells2) := by
        unfold serializeRow
        rw [show (t :: t2 :: cells2).map escapeCell
            = escapeCell t :: (t2 :: cells2).map escapeCell from rfl]
        rw [show List.map escapeCell (t2 :: cells2)
            = escapeCell t2 :: List.map escapeCell cells2 from rfl]
        rw [show sepComma (escapeCell t :: escapeCell t2 :: (cells2.map escapeCell))
            = escapeCell t ++ ',' :: sepComma (escapeCell t2 :: (cells2.map escapeCell)) from rfl]
        simp [List.append_assoc]
      rw [hser, List.foldl_append, csvFold_cell_comma,
        ih (by simp) (rowAcc ++ [t])]
      simp

theorem csvFold_rows (rws : List (List (List Char))) (h : ∀ r ∈ rws, r ≠ [])
    (rows : List (List (List Char))) :
    List.foldl csvStep ⟨CsvMode.cellStart, [], [], rows⟩ ((rws.map serializeRow).flatten)
      = ⟨CsvMode.cellStart, [], [], rows ++ rws⟩ := by
  induction rws generalizing rows with
  | nil => simp
  | cons r rws ih =>
    rw [show ((r :: rws).map serializeRow).flatten
        = serializeRow r ++ (rws.map serializeRow).flatten from by simp]
    rw [List.foldl_append, csvFold_row r (h r (List.mem_cons_self _ _)) [] rows]
    rw [show ([] : List (List Char)) ++ r = r from rfl]
    rw [ih (fun a ha => h a (List.mem_cons_of_mem _ ha)) (rows ++ [r])]
    simp

theorem parseCsv_serialize (rws : List (List (List Char))) (h : ∀ r ∈ rws, r ≠ []) :
    parseCsv ((rws.map serializeRow).flatten) = rws := by
  unfold parseCsv csvInit
  rw [csvFold_rows rws h []]
  unfold csvFinish
  rw [if_pos ⟨rfl, rfl, rfl⟩]
  simp

theorem rowToRecord_recordCells (r : ResultRecord) : rowToRecord (recordCells r) = some r := by
  show rowToRecord [r.name.data, r.gender.data, r.experience.data, r.jobRole.data,
    intToChars r.score, intToChars r.selected] = some r
  rw [show rowToRecord [r.name.data, r.gender.data, r.experience.data, r.jobRole.data,
      intToChars r.score, intToChars r.selected]
      = (match parseIntChars (intToChars r.score), parseIntChars (intToChars r.selected) with
        | some a, some b => some ⟨(r.name.data).asString, (r.gender.data).asString,
            (r.experience.data).asString, (r.jobRole.data).asString, a, b⟩
        | _, _ => none) from rfl]
  rw [parseInt_intToChars, parseInt_intToChars]
  rfl

theorem mapM_rowToRecord (rows : List ResultRecord) :
    (rows.map recordCells).mapM rowToRecord = some rows := by
  induction rows with
  | nil => rfl
  | cons r rows ih =>
    rw [List.map_cons, List.mapM_cons, rowToRecord_recordCells, ih]
    rfl

theorem recordCells_ne_nil (r : ResultRecord) : recordCells r ≠ [] := by
  simp [recordCells]

theorem readStore_writeStore (rows : List ResultRecord) :
    readStore (writeStore rows) = some rows := by
  unfold readStore writeStore
  rw [show ((((headerCells :: rows.map recordCells).map serializeRow).flatten).asString).data
      = (((headerCells :: rows.map recordCells).map serializeRow).flatten) from rfl]
  rw [parseCsv_serialize]
  · rw [show (match headerCells :: rows.map recordCells with
        | [] => (none : Option (List ResultRecord))
        | hdr :: body => if hdr = headerCells then body.mapM rowToRecord else none)
        = if headerCells = headerCells then (rows.map recordCells).mapM rowToRecord
          else none from rfl]
    rw [if_pos rfl, mapM_rowToRecord]
  · intro rr hrr
    rcases List.mem_cons.mp hrr with rfl | h2
    · simp [headerCells]
    · obtain ⟨q, _, rfl⟩ := List.mem_map.mp h2
      exact recordCells_ne_nil q

theorem recordStep_existing (f : String) (rows : List ResultRecord) (r : ResultRecord)
    (h : readStore f = some rows) :
    recordStep (some f) r = some (writeStore (rows ++ [r])) := by
  unfold recordStep
  show (match readStore f with
    | some old => some (writeStore (old ++ [r]))
    | none => some f) = some (writeStore (rows ++ [r]))
  rw [h]

/-- C6: writing any non-empty sequence of records through successive
Fairness Recorder invocations (each reading the whole file, concatenating
one row and rewriting the file, starting with no file) produces a store
that reloads to exactly that sequence of records, field for field, in
append order. -/
theorem c6_storeRoundTrip (rs : List ResultRecord) (h : rs ≠ []) :
    ∃ f, List.foldl recordStep none rs = some f ∧ readStore f = some rs := by
  have aux : ∀ (tail acc : List ResultRecord),
      List.foldl recordStep (some (writeStore acc)) tail
        = some (writeStore (acc ++ tail)) := by
    intro tail
    induction tail with
    | nil =>
      intro acc
      simp
    | cons r tail ih =>
      intro acc
      rw [List.foldl_cons, recordStep_existing _ acc r (readStore_writeStore acc),
        ih (acc ++ [r])]
      simp
  cases rs with
  | nil => exact absurd rfl h
  | cons r rs2 =>
    refine ⟨writeStore (r :: rs2), ?_, readStore_writeStore _⟩
    rw [List.foldl_cons,
      show recordStep none r = some (writeStore [r]) from rfl,
      aux rs2 [r]]
    rfl

/-- Witness for C6 with two concrete records, one of them with a comma in
the job role (exercising the quoting path) and a negative score. -/
theorem c6_storeRoundTrip_witness :
    ∃ f, List.foldl recordStep none
        [⟨"Alice", "Female", "Junior", "Data Analyst", 82, 1⟩,
         ⟨"Bob", "Male", "Senior", "Engineer, Backend", -5, 0⟩] = some f ∧
      readStore f = some
        [⟨"Alice", "Female", "Junior", "Data Analyst", 82, 1⟩,
         ⟨"Bob", "Male", "Senior", "Engineer, Backend", -5, 0⟩] :=
  c6_storeRoundTrip
    [⟨"Alice", "Female", "Junior", "Data Analyst", 82, 1⟩,
     ⟨"Bob", "Male", "Senior", "Engineer, Backend", -5, 0⟩] (by simp)

/-- C7: one Fairness Recorder invocation on an existing readable store
appends exactly one row: every previously stored row is unchanged in
content and position, the store grows by exactly one, and no deduplication
happens (the statement holds for any new record, also one equal to a stored
row). -/
theorem c7_recorderFrame (f : String) (rows : List ResultRecord) (r : ResultRecord)
    (h : readStore f = some rows) :
    ∃ f2, recordStep (some f) r = some f2 ∧
      readStore f2 = some (rows ++ [r]) ∧
      (rows ++ [r]).length = rows.length + 1 ∧
      (∀ i : ℕ, i < rows.length → (rows ++ [r])[i]? = rows[i]?) := by
  refine ⟨writeStore (rows ++ [r]), recordStep_existing f rows r h,
    readStore_writeStore _, by simp, ?_⟩
  intro i hi
  rw [List.getElem?_append, if_pos hi]

/-- Witness for C7: recording the duplicate of the single stored row grows
the store to two identical rows (no deduplication). -/
theorem c7_recorderFrame_witness :
    ∃ f2, recordStep (some (writeStore [⟨"Dana", "Other", "Fresher", "QA", 70, 1⟩]))
        ⟨"Dana", "Other", "Fresher", "QA", 70, 1⟩ = some f2 ∧
      readStore f2 = some
        [⟨"Dana", "Other", "Fresher", "QA", 70, 1⟩, ⟨"Dana", "Other", "Fresher", "QA", 70, 1⟩] ∧
      ([⟨"Dana", "Other", "Fresher", "QA", 70, 1⟩,
        (⟨"Dana", "Other", "Fresher", "QA", 70, 1⟩ : ResultRecord)]).length
        = ([(⟨"Dana", "Other", "Fresher", "QA", 70, 1⟩ : ResultRecord)]).length + 1 ∧
      (∀ i : ℕ, i < ([(⟨"Dana", "Other", "Fresher", "QA", 70, 1⟩ : ResultRecord)]).length →
        ([⟨"Dana", "Other", "Fresher", "QA", 70, 1⟩,
          (⟨"Dana", "Other", "Fresher", "QA", 70, 1⟩ : ResultRecord)])[i]?
          = ([(⟨"Dana", "Other", "Fresher", "QA", 70, 1⟩ : ResultRecord)])[i]?) :=
  c7_recorderFrame (writeStore [⟨"Dana", "Other", "Fresher", "QA", 70, 1⟩])
    [⟨"Dana", "Other", "Fresher", "QA", 70, 1⟩] ⟨"Dana", "Other", "Fresher", "QA", 70, 1⟩
    (readStore_writeStore [⟨"Dana", "Other", "Fresher", "QA", 70, 1⟩])
